import Mathlib

/-!
Shallow embedding of the course-catalog core of the advising-assistance
program (`src/catalog.cpp` / `src/catalog.hpp`), together with theorems
settling the specification claims about it.

The filesystem is modelled abstractly: a current working directory, an
existence predicate on absolute paths (lists of path components, root
first) and a reader that returns the lines of a file, or `none` when the
file cannot be opened.  `std::set` values are modelled by lists whose
observable behaviour (membership, sorted unique iteration) matches;
`std::unordered_map` is modelled by an association list, which is adequate
because every map-iteration result in the source is subsequently sorted.
-/

/-- Whitespace characters recognised by the trim helper in `catalog.cpp`
(space, tab, carriage return, newline). -/
def isSpaceChar (c : Char) : Bool :=
  c = ' ' || c = '\t' || c = '\r' || c = '\n'

/-- Embedding of the `trim` helper: drop the recognised whitespace from both
ends of the string. -/
def trim (s : String) : String :=
  String.mk (((s.data.dropWhile isSpaceChar).reverse.dropWhile isSpaceChar).reverse)

/-- ASCII upper-casing of one character, as `std::toupper` acts in the C
locale on an unsigned char (97–122 are the codes of the lower-case
letters; subtracting 32 maps them onto 65–90, the upper-case letters). -/
def toUpperChar (c : Char) : Char :=
  if 97 ≤ c.toNat ∧ c.toNat ≤ 122 then Char.ofNat (c.toNat - 32) else c

/-- Embedding of the `toUpper` helper of `catalog.cpp`. -/
def toUpper (s : String) : String :=
  String.mk (s.data.map toUpperChar)

/-- ASCII letter test, as `std::isalpha` acts in the C locale (codes 65–90
and 97–122). -/
def isAlphaChar (c : Char) : Bool :=
  (65 ≤ c.toNat && c.toNat ≤ 90) || (97 ≤ c.toNat && c.toNat ≤ 122)

/-- ASCII digit test, as `std::isdigit` acts in the C locale (codes
48–57). -/
def isDigitChar (c : Char) : Bool :=
  48 ≤ c.toNat && c.toNat ≤ 57

/-- The character loop of `isCourseIdValid`, carrying the `hasLetter` and
`hasDigit` flags. -/
def isCourseIdValidGo : List Char → Bool → Bool → Bool
  | [], hasLetter, hasDigit => hasLetter && hasDigit
  | c :: rest, hasLetter, hasDigit =>
    if isAlphaChar c then
      if hasDigit then false else isCourseIdValidGo rest true hasDigit
    else if isDigitChar c then
      isCourseIdValidGo rest hasLetter true
    else
      false

/-- Embedding of `isCourseIdValid` from `catalog.cpp`: letters, then digits,
with at least one of each and nothing else. -/
def isCourseIdValid (courseId : String) : Bool :=
  if courseId = "" then false
  else isCourseIdValidGo courseId.data false false

/-- Abstract filesystem: the current working directory as an absolute
component list, existence of absolute paths, and the lines of a file (with
`none` meaning the file cannot be opened). -/
structure FileSystem where
  cwd : List String
  pathExists : List String → Bool
  readLines : List String → Option (List String)

/-- A file name is absolute exactly when it starts with the path separator
(the POSIX rule used by `std::filesystem::path::is_absolute`). -/
def isAbsolutePath (fileName : String) : Bool :=
  match fileName.data with
  | '/' :: _ => true
  | _ => false

/-- Split a character list at every occurrence of `sep`, keeping empty
pieces. -/
def splitOnCharGo (sep : Char) : List Char → List Char → List String
  | [], acc => [String.mk acc]
  | c :: rest, acc =>
    if c = sep then String.mk acc :: splitOnCharGo sep rest []
    else splitOnCharGo sep rest (acc ++ [c])

/-- Path components of a file-name string: the separator-free pieces. -/
def pathComponents (fileName : String) : List String :=
  (splitOnCharGo '/' fileName.data []).filter (fun c => c ≠ "")

/-- Render an absolute component list the way `path::string()` renders the
resolved path. -/
def pathString (p : List String) : String :=
  "/" ++ String.intercalate "/" p

/-- Search depth used by `resolveCourseFilePath` (`kMaxParentSearchDepth`). -/
def kMaxParentSearchDepth : Nat := 10

/-- The parent-walking loop of `resolveCourseFilePath`: try
`searchDir / requested`, then step to the parent directory, at most `depth`
times.  For an absolute directory `has_parent_path()` always holds, so the
C++ `break` never fires; the parent of the root is the root itself. -/
def searchParents (fs : FileSystem) (req : List String) :
    Nat → List String → Option (List String)
  | 0, _ => none
  | depth + 1, searchDir =>
    if fs.pathExists (searchDir ++ req) then some (searchDir ++ req)
    else searchParents fs req depth searchDir.dropLast

/-- Embedding of `resolveCourseFilePath`: exact match for an absolute path;
for a relative path, first the current directory, then up to
`kMaxParentSearchDepth` parent steps. -/
def resolveCourseFilePath (fs : FileSystem) (fileName : String) :
    Option (List String) :=
  if fileName = "" then none
  else
    let req := pathComponents fileName
    if isAbsolutePath fileName then
      if fs.pathExists req then some req else none
    else if fs.pathExists (fs.cwd ++ req) then some (fs.cwd ++ req)
    else searchParents fs req kMaxParentSearchDepth fs.cwd

/-- Embedding of the `Course` record of `catalog.hpp`. -/
structure Course where
  courseNumber : String
  courseName : String
  prerequisites : List String
deriving Repr, DecidableEq

/-- Embedding of the `LoadResult` record of `catalog.hpp`, with the same
defaults as the in-class initialisers. -/
structure LoadResult where
  ok : Bool := false
  courses : Nat := 0
  warnings : List String := []
  missingPrerequisites : List String := []
  path : String := ""
deriving Repr, DecidableEq

/-- Embedding of the `Catalog` class state: the identifier-to-course map
(as an association list) and the cached sorted identifier list. -/
structure Catalog where
  courseDirectory : List (String × Course) := []
  sortedCourseIds : List String := []
deriving Repr, DecidableEq

/-- Lookup in the association-list model of `std::unordered_map`. -/
def alookup : List (String × Course) → String → Option Course
  | [], _ => none
  | kc :: rest, k => if kc.1 = k then some kc.2 else alookup rest k

/-- Insert-or-assign (`map[key] = value`) in the association-list model. -/
def ainsert (m : List (String × Course)) (k : String) (v : Course) :
    List (String × Course) :=
  if (alookup m k).isSome then
    m.map (fun kc => if kc.1 = k then (k, v) else kc)
  else m ++ [(k, v)]

/-- The cell loop of `std::getline(ss, cell, ',')` once a read has begun:
on a separator, close the current cell; a separator at end-of-stream closes
the last cell (the following `getline` extracts nothing and fails). -/
def splitCellsGo : List Char → List Char → List String
  | [], acc => [String.mk acc]
  | c :: rest, acc =>
    if c = ',' then
      String.mk acc ::
        (if rest = [] then [] else splitCellsGo rest [])
    else splitCellsGo rest (acc ++ [c])

/-- Splitting one line into cells with `std::getline(ss, cell, ',')`: every
comma is a separator, but a trailing separator produces no final empty
cell, and an empty stream produces no cell at all. -/
def splitCells (s : String) : List String :=
  match s.data with
  | [] => []
  | cs => splitCellsGo cs []

/-- Warning text for an invalid prerequisite token (original spelling of
the cell, owning course). -/
def invalidPrereqWarn (cell owner : String) : String :=
  "Skipping invalid prerequisite '" ++ cell ++ "' for course " ++ owner ++ "."

/-- Warning text for a duplicate prerequisite (normalized identifier,
owning course). -/
def dupPrereqWarn (prereqId owner : String) : String :=
  "Duplicate prerequisite '" ++ prereqId ++ "' ignored for course " ++
    owner ++ "."

/-- Warning text for a line with fewer than two fields. -/
def fewFieldsWarn (lineNumber : Nat) : String :=
  "Skipping line " ++ toString lineNumber ++ ": expected course ID and name."

/-- Warning text for a line whose first field fails validation (original,
non-normalized spelling). -/
def badIdWarn (lineNumber : Nat) (token : String) : String :=
  "Skipping line " ++ toString lineNumber ++ ": invalid course ID '" ++
    token ++ "'."

/-- The prerequisite loop of `Catalog::load` (columns from the third on):
`seen` models the `seenPrereqs` set, `prereqs` the accepted list, `warns`
the warnings accumulated so far. -/
def processPrereqCells (owner : String) :
    List String → List String → List String → List String →
    List String × List String
  | [], _, prereqs, warns => (prereqs, warns)
  | cell :: rest, seen, prereqs, warns =>
    if cell = "" then processPrereqCells owner rest seen prereqs warns
    else
      let prereqId := toUpper cell
      if isCourseIdValid prereqId = false then
        processPrereqCells owner rest seen prereqs
          (warns ++ [invalidPrereqWarn cell owner])
      else if seen.contains prereqId then
        processPrereqCells owner rest seen prereqs
          (warns ++ [dupPrereqWarn prereqId owner])
      else
        processPrereqCells owner rest (seen ++ [prereqId])
          (prereqs ++ [prereqId]) warns

/-- Specification-side restatement of the prerequisite handling (§4.2 step
5 of the specification, in the specification's words): empty fields are
ignored without warning; non-empty fields are upper-cased and validated,
invalid ones dropped with a warning naming the owning course; valid ones
are deduplicated against the previously accepted prerequisites of the same
record, repeats dropped with a warning naming the duplicate and the owner;
first occurrences are kept in encounter order.  Warnings are produced in
encounter order. -/
def specPrereqFold (owner : String) :
    List String → List String → List String × List String
  | [], accepted => (accepted, [])
  | cell :: rest, accepted =>
    if cell = "" then specPrereqFold owner rest accepted
    else
      let u := toUpper cell
      if isCourseIdValid u = false then
        let r := specPrereqFold owner rest accepted
        (r.1, invalidPrereqWarn cell owner :: r.2)
      else if accepted.contains u then
        let r := specPrereqFold owner rest accepted
        (r.1, dupPrereqWarn u owner :: r.2)
      else
        specPrereqFold owner rest (accepted ++ [u])

/-- One iteration of the line loop of `Catalog::load`, up to (but not
including) the duplicate-course check: the course the line yields, if any,
and the warnings it emits. -/
def parseLine (lineNumber : Nat) (rawLine : String) :
    Option Course × List String :=
  let line := trim rawLine
  if line = "" then (none, [])
  else
    match (splitCells line).map trim with
    | c0 :: c1 :: rest =>
      let courseId := toUpper c0
      if isCourseIdValid courseId = false then
        (none, [badIdWarn lineNumber c0])
      else
        let pr := processPrereqCells courseId rest [] [] []
        (some { courseNumber := courseId, courseName := c1,
                prerequisites := pr.1 }, pr.2)
    | _ =>
      (none, [fewFieldsWarn lineNumber])

/-- The replacement warning emitted when a later line redefines a course. -/
def replWarn (courseId : String) : String :=
  "Replacing existing course entry for " ++ courseId ++ "."

/-- The whole line loop of `Catalog::load`: fold the lines into the
temporary directory and the warning list, numbering lines from `n`. -/
def processLines : List String → Nat → List (String × Course) →
    List String → List (String × Course) × List String
  | [], _, dir, warns => (dir, warns)
  | l :: rest, n, dir, warns =>
    match parseLine n l with
    | (none, ws) => processLines rest (n + 1) dir (warns ++ ws)
    | (some course, ws) =>
      let repl :=
        if (alookup dir course.courseNumber).isSome then
          [replWarn course.courseNumber]
        else []
      processLines rest (n + 1) (ainsert dir course.courseNumber course)
        (warns ++ ws ++ repl)

/-- The dangling-reference descriptions, one per (owner, missing
prerequisite) pair, in map order (the order is irrelevant: the result is
sorted and deduplicated before use, exactly as `std::set` iteration is). -/
def missingPairs (dir : List (String × Course)) : List String :=
  (dir.map (fun kc =>
    (kc.2.prerequisites.filter (fun p => (alookup dir p).isNone)).map
      (fun p => p ++ " (referenced by " ++ kc.1 ++ ")"))).flatten

/-- Sorted, duplicate-free view of a list of strings: the observable
iteration order of a `std::set<std::string>` holding its elements. -/
def sortDedup (l : List String) : List String :=
  (List.insertionSort (fun a b => a ≤ b) l).dedup

/-- Embedding of `Catalog::load`.  Returns the catalog state after the call
together with the `LoadResult`. -/
def Catalog.load (cat : Catalog) (fs : FileSystem) (fileName : String) :
    Catalog × LoadResult :=
  if fileName = "" then
    (cat, { warnings := ["File name is empty."] })
  else
    match resolveCourseFilePath fs fileName with
    | none =>
      (cat, { warnings := ["Unable to locate file: " ++ fileName],
              path := fileName })
    | some resolved =>
      match fs.readLines resolved with
      | none =>
        (cat, { warnings := ["Unable to open file: " ++ pathString resolved],
                path := pathString resolved })
      | some fileLines =>
        let parsed := processLines fileLines 1 [] []
        if parsed.1 = [] then
          (cat, { warnings := parsed.2, path := pathString resolved })
        else
          ({ courseDirectory := parsed.1,
             sortedCourseIds :=
               List.insertionSort (fun a b => a ≤ b) (parsed.1.map Prod.fst) },
           { ok := true, courses := parsed.1.length,
             warnings := parsed.2,
             missingPrerequisites := sortDedup (missingPairs parsed.1),
             path := pathString resolved })

/-- Embedding of `Catalog::get`: exact lookup, `none` for an absent key. -/
def Catalog.get (cat : Catalog) (id : String) : Option Course :=
  alookup cat.courseDirectory id

/-- Embedding of `Catalog::ids`: a copy of the cached sorted list. -/
def Catalog.ids (cat : Catalog) : List String :=
  cat.sortedCourseIds

/-- The directory reached from `dir` by `k` parent steps (the parent of the
root is the root itself, as for `std::filesystem` absolute paths). -/
def nthParent : Nat → List String → List String
  | 0, dir => dir
  | k + 1, dir => nthParent k dir.dropLast

/-- A filesystem with no files at all, used to instantiate theorems. -/
def fsEmpty : FileSystem :=
  { cwd := [], pathExists := fun _ => false, readLines := fun _ => none }

/-- A filesystem on which every path exists but no file can be opened,
used to instantiate theorems about open failures. -/
def fsUnreadable : FileSystem :=
  { cwd := [], pathExists := fun _ => true, readLines := fun _ => none }

/-- A filesystem whose only file is `/data.csv`, holding one course line,
while the current working directory is `/home`. -/
def fsSample : FileSystem :=
  { cwd := ["home"],
    pathExists := fun p => p == ["data.csv"],
    readLines := fun p =>
      if p == ["data.csv"] then some ["CSCI200, Intro to CS, MATH101"]
      else none }

/-- The catalog states reachable through the public interface: the empty
initial state, and the state after any `load` call on a reachable state
(`get` and `ids` take the state as an unmodified argument, so they cannot
change it). -/
inductive Reachable : Catalog → Prop
  | init : Reachable { }
  | step (c : Catalog) (fs : FileSystem) (f : String) :
      Reachable c → Reachable (Catalog.load c fs f).1

/-- The course a line yields, if any (independent of the line number,
which only enters warning texts); `1` is an arbitrary line number. -/
def lineCourse (l : String) : Option Course :=
  (parseLine 1 l).1

/-- The course committed for identifier `id` after processing `lines` in
order into an initially empty directory: the record of the last line that
yields a course with that identifier. -/
def lastCourseFor (id : String) : List String → Option Course
  | [] => none
  | l :: rest =>
    match lastCourseFor id rest with
    | some c => some c
    | none =>
      match lineCourse l with
      | some c => if c.courseNumber = id then some c else none
      | none => none

/-- How many of the given lines yield a course with identifier `id`. -/
def countDefs (id : String) (lines : List String) : Nat :=
  lines.countP (fun l =>
    match lineCourse l with
    | some c => c.courseNumber == id
    | none => false)

theorem isCourseIdValid_sanity :
    isCourseIdValid "CSCI200" = true ∧ isCourseIdValid "csci200" = true ∧
    isCourseIdValid "200CSCI" = false ∧ isCourseIdValid "CS2CI" = false ∧
    isCourseIdValid "CSCI" = false ∧ isCourseIdValid "200" = false ∧
    isCourseIdValid "" = false := by decide

theorem helpers_sanity :
    trim "  a b\t" = "a b" ∧ toUpper "csci200" = "CSCI200" ∧
    splitCells "a,b," = ["a", "b"] ∧ splitCells "a,b,," = ["a", "b", ""] ∧
    splitCells "," = [""] ∧
    pathComponents "/home/user/data.csv" = ["home", "user", "data.csv"] := by
  decide

theorem load_shape (cat : Catalog) (fs : FileSystem) (f : String) :
    ((Catalog.load cat fs f).2.ok = false ∧ (Catalog.load cat fs f).1 = cat) ∨
    ((Catalog.load cat fs f).2.ok = true ∧
      0 < (Catalog.load cat fs f).2.courses ∧
      ∃ fileLines,
        (processLines fileLines 1 [] []).1 ≠ [] ∧
        (Catalog.load cat fs f).1 =
          { courseDirectory := (processLines fileLines 1 [] []).1,
            sortedCourseIds := List.insertionSort (fun a b => a ≤ b)
              ((processLines fileLines 1 [] []).1.map Prod.fst) } ∧
        (Catalog.load cat fs f).2.missingPrerequisites =
          sortDedup (missingPairs (processLines fileLines 1 [] []).1) ∧
        (Catalog.load cat fs f).2.warnings =
          (processLines fileLines 1 [] []).2 ∧
        (Catalog.load cat fs f).2.courses =
          (processLines fileLines 1 [] []).1.length) := by
  unfold Catalog.load
  split
  · exact Or.inl ⟨rfl, rfl⟩
  · split
    · exact Or.inl ⟨rfl, rfl⟩
    · split
      · exact Or.inl ⟨rfl, rfl⟩
      · dsimp only
        split
        · exact Or.inl ⟨rfl, rfl⟩
        · rename_i fileLines hread hne
          exact Or.inr ⟨rfl, List.length_pos.mpr hne,
            fileLines, hne, rfl, rfl, rfl, rfl⟩

theorem load_not_ok_state (cat : Catalog) (fs : FileSystem) (f : String)
    (h : (Catalog.load cat fs f).2.ok = false) :
    (Catalog.load cat fs f).1 = cat := by
  rcases load_shape cat fs f with ⟨_, hs⟩ | ⟨hok, _⟩
  · exact hs
  · rw [hok] at h; exact absurd h (by simp)

theorem load_ok_courses (cat : Catalog) (fs : FileSystem) (f : String)
    (h : (Catalog.load cat fs f).2.ok = true) :
    0 < (Catalog.load cat fs f).2.courses := by
  rcases load_shape cat fs f with ⟨hok, _⟩ | ⟨_, hc, -⟩
  · rw [hok] at h; exact absurd h (by simp)
  · exact hc

/-- C1.  Atomic commit: whenever a `load` call fails (file not located, not
openable, or no valid record parsed — all the cases with `ok = false`), the
previously committed catalog state is unchanged, so `get` and `ids` answer
as before; the state is replaced only on a load that commits at least one
record. -/
theorem load_failure_preserves_state (cat : Catalog) (fs : FileSystem)
    (f : String) :
    ((Catalog.load cat fs f).2.ok = false →
      (Catalog.load cat fs f).1 = cat ∧
      (∀ id, (Catalog.load cat fs f).1.get id = cat.get id) ∧
      (Catalog.load cat fs f).1.ids = cat.ids) ∧
    ((Catalog.load cat fs f).2.ok = true →
      0 < (Catalog.load cat fs f).2.courses) := by
  constructor
  · intro h
    have hs := load_not_ok_state cat fs f h
    exact ⟨hs, fun id => by rw [hs], by rw [hs]⟩
  · exact load_ok_courses cat fs f

theorem load_failure_preserves_state_witness :
    (Catalog.load { } fsEmpty "missing.csv").1 = { } :=
  ((load_failure_preserves_state { } fsEmpty "missing.csv").1 (by decide)).1

/-- C9.  Loading with an empty file name returns the default-failure result
carrying exactly the warning "File name is empty." and touches neither the
filesystem (the result is the same for every filesystem) nor the catalog
state. -/
theorem load_empty_file_name (cat : Catalog) (fs : FileSystem) :
    Catalog.load cat fs "" =
      (cat, { ok := false, courses := 0, warnings := ["File name is empty."],
              missingPrerequisites := [], path := "" }) := rfl

theorem alpha_not_digit (c : Char) (h : isAlphaChar c = true) :
    isDigitChar c = false := by
  simp [isAlphaChar, isDigitChar] at *
  omega

theorem go_all_digits (l : List Char) (hL : Bool) :
    isCourseIdValidGo l hL true = true ↔
      (∀ c ∈ l, isDigitChar c = true) ∧ hL = true := by
  induction l generalizing hL with
  | nil => simp [isCourseIdValidGo, Bool.and_comm]
  | cons c rest ih =>
    by_cases ha : isAlphaChar c = true
    · rw [show isCourseIdValidGo (c :: rest) hL true = false by
        simp [isCourseIdValidGo, ha]]
      constructor
      · intro h; exact absurd h (by simp)
      · rintro ⟨hall, -⟩
        have hdc := hall c (by simp)
        rw [alpha_not_digit c ha] at hdc
        exact absurd hdc (by simp)
    · by_cases hd : isDigitChar c = true
      · rw [show isCourseIdValidGo (c :: rest) hL true =
            isCourseIdValidGo rest hL true by simp [isCourseIdValidGo, ha, hd]]
        rw [ih hL]
        constructor
        · rintro ⟨hall, hhl⟩
          refine ⟨fun d hdm => ?_, hhl⟩
          rcases List.mem_cons.mp hdm with h | h
          · rw [h]; exact hd
          · exact hall d h
        · rintro ⟨hall, hhl⟩
          exact ⟨fun d hdm => hall d (List.mem_cons_of_mem c hdm), hhl⟩
      · rw [show isCourseIdValidGo (c :: rest) hL true = false by
          simp [isCourseIdValidGo, ha, hd]]
        constructor
        · intro h; exact absurd h (by simp)
        · rintro ⟨hall, -⟩
          exact absurd (hall c (by simp)) hd

theorem go_letters_then_digits (l : List Char) (hL : Bool) :
    isCourseIdValidGo l hL false = true ↔
      ∃ ls ds, l = ls ++ ds ∧ (∀ c ∈ ls, isAlphaChar c = true) ∧
        (∀ c ∈ ds, isDigitChar c = true) ∧ ds ≠ [] ∧
        (hL = true ∨ ls ≠ []) := by
  induction l generalizing hL with
  | nil =>
    rw [show isCourseIdValidGo [] hL false = false by
      simp [isCourseIdValidGo]]
    constructor
    · intro h; exact absurd h (by simp)
    · rintro ⟨ls, ds, hsplit, -, -, hds, -⟩
      exact absurd (List.append_eq_nil.mp hsplit.symm).2 hds
  | cons c rest ih =>
    by_cases ha : isAlphaChar c = true
    · rw [show isCourseIdValidGo (c :: rest) hL false =
        isCourseIdValidGo rest true false by simp [isCourseIdValidGo, ha]]
      rw [ih true]
      constructor
      · rintro ⟨ls, ds, hsplit, hla, hld, hds, -⟩
        refine ⟨c :: ls, ds, by simp [hsplit], fun d hdm => ?_,
          hld, hds, Or.inr (by simp)⟩
        rcases List.mem_cons.mp hdm with h | h
        · rw [h]; exact ha
        · exact hla d h
      · rintro ⟨ls, ds, hsplit, hla, hld, hds, -⟩
        cases ls with
        | nil =>
          rw [List.nil_append] at hsplit
          have hdc := hld c (by rw [← hsplit]; simp)
          rw [alpha_not_digit c ha] at hdc
          exact absurd hdc (by simp)
        | cons x ls' =>
          rw [List.cons_append] at hsplit
          injection hsplit with hx hrest
          exact ⟨ls', ds, hrest,
            fun d hdm => hla d (List.mem_cons_of_mem x hdm),
            hld, hds, Or.inl rfl⟩
    · by_cases hd : isDigitChar c = true
      · rw [show isCourseIdValidGo (c :: rest) hL false =
          isCourseIdValidGo rest hL true by simp [isCourseIdValidGo, ha, hd]]
        rw [go_all_digits rest hL]
        constructor
        · rintro ⟨hall, hhl⟩
          refine ⟨[], c :: rest, rfl, by simp, fun d hdm => ?_,
            by simp, Or.inl hhl⟩
          rcases List.mem_cons.mp hdm with h | h
          · rw [h]; exact hd
          · exact hall d h
        · rintro ⟨ls, ds, hsplit, hla, hld, hds, hlast⟩
          cases ls with
          | nil =>
            rw [List.nil_append] at hsplit
            constructor
            · intro d hdm
              exact hld d (by rw [← hsplit]; exact List.mem_cons_of_mem c hdm)
            · rcases hlast with h | h
              · exact h
              · exact absurd rfl h
          | cons x ls' =>
            rw [List.cons_append] at hsplit
            injection hsplit with hx hrest
            have hxa := hla x (by simp)
            rw [← hx] at hxa
            rw [alpha_not_digit c hxa] at hd
            exact absurd hd (by simp)
      · rw [show isCourseIdValidGo (c :: rest) hL false = false by
          simp [isCourseIdValidGo, ha, hd]]
        constructor
        · intro h; exact absurd h (by simp)
        · rintro ⟨ls, ds, hsplit, hla, hld, hds, -⟩
          cases ls with
          | nil =>
            rw [List.nil_append] at hsplit
            exact absurd (hld c (by rw [← hsplit]; simp)) hd
          | cons x ls' =>
            rw [List.cons_append] at hsplit
            injection hsplit with hx hrest
            refine absurd ?_ ha
            rw [hx]
            exact hla x (by simp)

/-- C2.  The identifier validator accepts exactly the tokens of shape
"one or more ASCII letters followed by one or more ASCII digits": it is a
total Boolean predicate, and it returns `true` iff the character list of
the token splits into a non-empty all-letter block followed by a non-empty
all-digit block (hence the token is non-empty, all-alphanumeric, has at
least one letter and one digit, and no letter after the first digit; every
other token — empty, punctuated, pure letters, pure digits,
digits-then-letters — is rejected). -/
theorem isCourseIdValid_iff (s : String) :
    isCourseIdValid s = true ↔
      ∃ ls ds, s.data = ls ++ ds ∧ ls ≠ [] ∧ ds ≠ [] ∧
        (∀ c ∈ ls, isAlphaChar c = true) ∧
        (∀ c ∈ ds, isDigitChar c = true) := by
  unfold isCourseIdValid
  by_cases hs : s = ""
  · subst hs
    rw [if_pos rfl]
    constructor
    · intro h; exact absurd h (by simp)
    · rintro ⟨ls, ds, hsplit, hls, -, -, -⟩
      exact absurd (List.append_eq_nil.mp hsplit.symm).1 hls
  · rw [if_neg hs, go_letters_then_digits s.data false]
    constructor
    · rintro ⟨ls, ds, hsplit, hla, hld, hds, hlast⟩
      rcases hlast with h | hls
      · exact absurd h (by simp)
      · exact ⟨ls, ds, hsplit, hls, hds, hla, hld⟩
    · rintro ⟨ls, ds, hsplit, hls, hds, hla, hld⟩
      exact ⟨ls, ds, hsplit, hla, hld, hds, Or.inr hls⟩

theorem searchParents_eq_none_iff (fs : FileSystem) (req : List String) :
    ∀ (n : Nat) (dir : List String),
      searchParents fs req n dir = none ↔
        ∀ k < n, fs.pathExists (nthParent k dir ++ req) = false := by
  intro n
  induction n with
  | zero => intro dir; simp [searchParents]
  | succ m ih =>
    intro dir
    unfold searchParents
    by_cases he : fs.pathExists (dir ++ req) = true
    · rw [if_pos he]
      constructor
      · intro h; exact absurd h (by simp)
      · intro h
        have := h 0 (Nat.succ_pos m)
        rw [show nthParent 0 dir = dir from rfl] at this
        rw [he] at this
        exact absurd this (by simp)
    · rw [if_neg he, ih dir.dropLast]
      constructor
      · intro h k hk
        cases k with
        | zero =>
          rw [show nthParent 0 dir = dir from rfl]
          exact Bool.not_eq_true _ ▸ (by simpa using he)
        | succ j =>
          exact h j (Nat.lt_of_succ_lt_succ hk)
      · intro h k hk
        exact h (k + 1) (Nat.succ_lt_succ hk)

theorem searchParents_eq_some (fs : FileSystem) (req : List String) :
    ∀ (n : Nat) (dir p : List String),
      searchParents fs req n dir = some p →
        ∃ k < n, p = nthParent k dir ++ req ∧ fs.pathExists p = true := by
  intro n
  induction n with
  | zero => intro dir p h; exact absurd h (by simp [searchParents])
  | succ m ih =>
    intro dir p h
    unfold searchParents at h
    by_cases he : fs.pathExists (dir ++ req) = true
    · rw [if_pos he] at h
      injection h with h
      exact ⟨0, Nat.succ_pos m, h.symm, h ▸ he⟩
    · rw [if_neg he] at h
      rcases ih dir.dropLast p h with ⟨k, hk, hp, hex⟩
      exact ⟨k + 1, Nat.succ_lt_succ hk, hp, hex⟩

/-- C3 counterexample: with the working directory `/home` and the only file
at `/data.csv`, the relative name "data.csv" does not exist relative to the
working directory, yet `load` succeeds by finding the same-named file in
the parent directory — it does not report failure. -/
theorem load_searches_parents :
    fsSample.pathExists (fsSample.cwd ++ pathComponents "data.csv") = false ∧
    (Catalog.load { } fsSample "data.csv").2.ok = true ∧
    (Catalog.load { } fsSample "data.csv").2.path = "/data.csv" :=
  ⟨by decide, by decide, by decide⟩

/-- C3 (amended).  `load` does search the filesystem for a relative path:
via `resolveCourseFilePath` it opens an absolute path exactly as given, but
resolves a relative path by trying the current working directory and then
up to `kMaxParentSearchDepth` (10) parent directories, and reports failure
to locate the file only when it exists at none of those candidates; any
located candidate is one of them. -/
theorem load_path_resolution_search (fs : FileSystem) (f : String)
    (hne : f ≠ "") :
    (isAbsolutePath f = true →
      resolveCourseFilePath fs f =
        (if fs.pathExists (pathComponents f) then some (pathComponents f)
         else none)) ∧
    (isAbsolutePath f = false →
      ((resolveCourseFilePath fs f = none ↔
        ∀ k < kMaxParentSearchDepth,
          fs.pathExists (nthParent k fs.cwd ++ pathComponents f) = false) ∧
       (∀ p, resolveCourseFilePath fs f = some p →
         ∃ k < kMaxParentSearchDepth,
           p = nthParent k fs.cwd ++ pathComponents f ∧
           fs.pathExists p = true))) := by
  constructor
  · intro habs
    unfold resolveCourseFilePath
    rw [if_neg hne, if_pos habs]
  · intro hrel
    have hre : resolveCourseFilePath fs f =
        (if fs.pathExists (fs.cwd ++ pathComponents f) then
          some (fs.cwd ++ pathComponents f)
        else searchParents fs (pathComponents f) kMaxParentSearchDepth fs.cwd) := by
      unfold resolveCourseFilePath
      rw [if_neg hne, if_neg (by rw [hrel]; simp)]
    constructor
    · rw [hre]
      by_cases he : fs.pathExists (fs.cwd ++ pathComponents f) = true
      · rw [if_pos he]
        constructor
        · intro h; exact absurd h (by simp)
        · intro h
          have h0 := h 0 (by norm_num [kMaxParentSearchDepth])
          rw [show nthParent 0 fs.cwd = fs.cwd from rfl, he] at h0
          exact absurd h0 (by simp)
      · rw [if_neg he]
        exact searchParents_eq_none_iff fs (pathComponents f)
          kMaxParentSearchDepth fs.cwd
    · intro p hp
      rw [hre] at hp
      by_cases he : fs.pathExists (fs.cwd ++ pathComponents f) = true
      · rw [if_pos he] at hp
        injection hp with hp
        exact ⟨0, by norm_num [kMaxParentSearchDepth], hp.symm, hp ▸ he⟩
      · rw [if_neg he] at hp
        exact searchParents_eq_some fs (pathComponents f)
          kMaxParentSearchDepth fs.cwd p hp

theorem load_path_resolution_search_witness :
    resolveCourseFilePath fsSample "/data.csv" = some ["data.csv"] :=
  by rw [(load_path_resolution_search fsSample "/data.csv" (by decide)).1
      (by decide)]; decide

/-- C10.  On a failed load with a non-empty file name: if the file cannot
be located, the result's `path` is the raw input name as given; if it is
located but cannot be opened, the `path` is the rendered resolved absolute
path; both cases have `ok = false`. -/
theorem load_path_on_failure (cat : Catalog) (fs : FileSystem) (f : String)
    (hne : f ≠ "") :
    (resolveCourseFilePath fs f = none →
      (Catalog.load cat fs f).2.path = f ∧
      (Catalog.load cat fs f).2.ok = false) ∧
    (∀ p, resolveCourseFilePath fs f = some p → fs.readLines p = none →
      (Catalog.load cat fs f).2.path = pathString p ∧
      (Catalog.load cat fs f).2.ok = false) := by
  unfold Catalog.load
  rw [if_neg hne]
  constructor
  · intro h
    rw [h]
    exact ⟨rfl, rfl⟩
  · intro p hp hr
    rw [hp]
    dsimp only
    rw [hr]
    exact ⟨rfl, rfl⟩

theorem load_path_on_failure_witness :
    (Catalog.load { } fsEmpty "nofile.csv").2.path = "nofile.csv" ∧
    (Catalog.load { } fsUnreadable "/a.csv").2.path = pathString ["a.csv"] :=
  ⟨((load_path_on_failure { } fsEmpty "nofile.csv" (by decide)).1 (by decide)).1,
   ((load_path_on_failure { } fsUnreadable "/a.csv" (by decide)).2
      ["a.csv"] (by decide) rfl).1⟩

theorem alookup_eq_none_iff (m : List (String × Course)) (k : String) :
    alookup m k = none ↔ k ∉ m.map Prod.fst := by
  induction m with
  | nil => simp [alookup]
  | cons kc rest ih =>
    by_cases h : kc.1 = k
    · rw [show alookup (kc :: rest) k = some kc.2 from by simp [alookup, h]]
      simp only [List.map_cons, List.mem_cons]
      constructor
      · intro hx
        exact absurd hx (by simp)
      · intro hmem
        exact absurd (Or.inl h.symm) hmem
    · rw [show alookup (kc :: rest) k = alookup rest k from by
        simp [alookup, h], ih]
      simp only [List.map_cons, List.mem_cons]
      constructor
      · intro hnot hor
        rcases hor with h1 | h1
        · exact h h1.symm
        · exact hnot h1
      · intro hnot h1
        exact hnot (Or.inr h1)

theorem alookup_isSome_iff (m : List (String × Course)) (k : String) :
    (alookup m k).isSome = true ↔ k ∈ m.map Prod.fst := by
  rcases h : alookup m k with - | c
  · rw [(alookup_eq_none_iff m k).mp h |> iff_false_intro]
    simp
  · simp only [Option.isSome_some, true_iff]
    by_contra hmem
    rw [(alookup_eq_none_iff m k).mpr hmem] at h
    exact absurd h (by simp)

theorem ainsert_keys_present (m : List (String × Course)) (k : String)
    (v : Course) (h : (alookup m k).isSome = true) :
    (ainsert m k v).map Prod.fst = m.map Prod.fst := by
  unfold ainsert
  rw [if_pos h]
  clear h
  induction m with
  | nil => rfl
  | cons kc rest ih =>
    by_cases hk : kc.1 = k
    · simp only [List.map_cons, if_pos hk, ih]
      rw [← hk]
    · simp only [List.map_cons, if_neg hk, ih]

theorem ainsert_keys_absent (m : List (String × Course)) (k : String)
    (v : Course) (h : alookup m k = none) :
    (ainsert m k v).map Prod.fst = m.map Prod.fst ++ [k] := by
  unfold ainsert
  rw [h]
  simp

theorem ainsert_keys_nodup (m : List (String × Course)) (k : String)
    (v : Course) (h : (m.map Prod.fst).Nodup) :
    ((ainsert m k v).map Prod.fst).Nodup := by
  rcases hk : alookup m k with - | c
  · rw [ainsert_keys_absent m k v hk]
    have hmem := (alookup_eq_none_iff m k).mp hk
    simp [List.nodup_append, h, hmem]
  · rw [ainsert_keys_present m k v (by simp [hk])]
    exact h

theorem processLines_keys_nodup (lines : List String) :
    ∀ (n : Nat) (dir : List (String × Course)) (warns : List String),
      (dir.map Prod.fst).Nodup →
      ((processLines lines n dir warns).1.map Prod.fst).Nodup := by
  induction lines with
  | nil => intro n dir warns h; exact h
  | cons l rest ih =>
    intro n dir warns h
    unfold processLines
    rcases hp : parseLine n l with ⟨course?, ws⟩
    rcases course? with - | course
    · exact ih _ _ _ h
    · exact ih _ _ _ (ainsert_keys_nodup _ _ _ h)

/-- C7.  Order invariant of the query surface: in every reachable catalog
state (the empty initial state and anything produced by `load` calls),
`ids` returns a sorted, duplicate-free list whose members are exactly the
keys on which `get` succeeds — the lexicographically sorted, duplicate-free
key set of the committed mapping.  `get` and `ids` are pure functions of
the state, so they modify nothing and emit no warnings. -/
theorem ids_sorted_key_set (c : Catalog) (h : Reachable c) :
    List.Sorted (fun a b => a ≤ b) c.ids ∧ c.ids.Nodup ∧
    ∀ k, k ∈ c.ids ↔ (c.get k).isSome = true := by
  induction h with
  | init =>
    refine ⟨List.sorted_nil, List.nodup_nil, fun k => ?_⟩
    simp [Catalog.ids, Catalog.get, alookup]
  | step c fs f hc ih =>
    rcases load_shape c fs f with ⟨-, hs⟩ | ⟨-, -, fl, hne, hstate, -⟩
    · rw [hs]; exact ih
    · rw [hstate]
      have hkn := processLines_keys_nodup fl 1 [] [] (by simp)
      refine ⟨List.sorted_insertionSort _ _,
        ((List.perm_insertionSort _ _).nodup_iff).mpr hkn, fun k => ?_⟩
      show k ∈ List.insertionSort _ _ ↔ _
      rw [(List.perm_insertionSort (fun a b => a ≤ b) _).mem_iff]
      exact (alookup_isSome_iff _ k).symm

theorem ids_sorted_key_set_witness :
    (Catalog.ids { }).Nodup :=
  (ids_sorted_key_set { } Reachable.init).2.1

theorem load_independent_of_state (cat cat' : Catalog) (fs : FileSystem)
    (f : String) :
    (Catalog.load cat fs f).2 = (Catalog.load cat' fs f).2 ∧
    ((Catalog.load cat fs f).2.ok = true →
      (Catalog.load cat fs f).1 = (Catalog.load cat' fs f).1) := by
  unfold Catalog.load
  by_cases h1 : f = ""
  · rw [if_pos h1, if_pos h1]
    exact ⟨rfl, fun h => absurd h (by simp)⟩
  · rw [if_neg h1, if_neg h1]
    rcases h2 : resolveCourseFilePath fs f with - | resolved
    · exact ⟨rfl, fun h => absurd h (by simp)⟩
    · dsimp only
      rcases h3 : fs.readLines resolved with - | fileLines
      · exact ⟨rfl, fun h => absurd h (by simp)⟩
      · dsimp only
        by_cases h4 : (processLines fileLines 1 [] []).1 = []
        · rw [if_pos h4, if_pos h4]
          exact ⟨rfl, fun h => absurd h (by simp)⟩
        · rw [if_neg h4, if_neg h4]
          exact ⟨rfl, fun _ => rfl⟩

/-- C8.  Idempotence of `load`: when a load of a file succeeds (commits at
least one record), immediately loading the same file again leaves the
directory with identical contents — the same identifier-to-course mapping
and the same `ids` output after each of the two calls. -/
theorem load_idempotent (cat : Catalog) (fs : FileSystem) (f : String)
    (h : (Catalog.load cat fs f).2.ok = true) :
    (Catalog.load (Catalog.load cat fs f).1 fs f).1 =
      (Catalog.load cat fs f).1 ∧
    (Catalog.load (Catalog.load cat fs f).1 fs f).1.courseDirectory =
      (Catalog.load cat fs f).1.courseDirectory ∧
    (Catalog.load (Catalog.load cat fs f).1 fs f).1.ids =
      (Catalog.load cat fs f).1.ids := by
  have hind := load_independent_of_state (Catalog.load cat fs f).1 cat fs f
  have hok2 : (Catalog.load (Catalog.load cat fs f).1 fs f).2.ok = true := by
    rw [hind.1]; exact h
  have hstate := hind.2 hok2
  refine ⟨hstate, by rw [hstate], by rw [hstate]⟩

theorem load_idempotent_witness :
    (Catalog.load (Catalog.load { } fsSample "/data.csv").1 fsSample
        "/data.csv").1.ids =
      (Catalog.load { } fsSample "/data.csv").1.ids :=
  (load_idempotent { } fsSample "/data.csv" (by decide)).2.2

theorem contains_append_singleton (l : List String) (u x : String) :
    (l ++ [u]).contains x = (l.contains x || x == u) := by
  simp [List.contains_eq_any_beq, List.any_append, Bool.beq_eq_decide_eq]

theorem processPrereqCells_eq_spec_general (owner : String) :
    ∀ (cells seen prereqs warns : List String),
      (∀ u, seen.contains u = prereqs.contains u) →
      processPrereqCells owner cells seen prereqs warns =
        ((specPrereqFold owner cells prereqs).1,
          warns ++ (specPrereqFold owner cells prereqs).2) := by
  intro cells
  induction cells with
  | nil =>
    intro seen prereqs warns h
    simp [processPrereqCells, specPrereqFold]
  | cons cell rest ih =>
    intro seen prereqs warns h
    by_cases hc : cell = ""
    · rw [show processPrereqCells owner (cell :: rest) seen prereqs warns =
            processPrereqCells owner rest seen prereqs warns from by
          simp [processPrereqCells, hc],
        show specPrereqFold owner (cell :: rest) prereqs =
            specPrereqFold owner rest prereqs from by
          simp [specPrereqFold, hc]]
      exact ih seen prereqs warns h
    · by_cases hv : isCourseIdValid (toUpper cell) = false
      · rw [show processPrereqCells owner (cell :: rest) seen prereqs warns =
              processPrereqCells owner rest seen prereqs
                (warns ++ [invalidPrereqWarn cell owner]) from by
            simp [processPrereqCells, hc, hv],
          show specPrereqFold owner (cell :: rest) prereqs =
              ((specPrereqFold owner rest prereqs).1,
                invalidPrereqWarn cell owner ::
                  (specPrereqFold owner rest prereqs).2) from by
            simp [specPrereqFold, hc, hv]]
        rw [ih seen prereqs _ h]
        simp
      · by_cases hd : seen.contains (toUpper cell) = true
        · have hd' : prereqs.contains (toUpper cell) = true := by
            rw [← h]; exact hd
          have hdm : toUpper cell ∈ seen := by simpa using hd
          have hdm' : toUpper cell ∈ prereqs := by simpa using hd'
          rw [show processPrereqCells owner (cell :: rest) seen prereqs warns =
                processPrereqCells owner rest seen prereqs
                  (warns ++ [dupPrereqWarn (toUpper cell) owner]) from by
              simp [processPrereqCells, hc, hv, hdm],
            show specPrereqFold owner (cell :: rest) prereqs =
                ((specPrereqFold owner rest prereqs).1,
                  dupPrereqWarn (toUpper cell) owner ::
                    (specPrereqFold owner rest prereqs).2) from by
              simp [specPrereqFold, hc, hv, hdm']]
          rw [ih seen prereqs _ h]
          simp
        · have hd0 : seen.contains (toUpper cell) = false := by
            simpa using hd
          have hd' : prereqs.contains (toUpper cell) = false := by
            rw [← h]; exact hd0
          have hdm : toUpper cell ∉ seen := by simpa using hd0
          have hdm' : toUpper cell ∉ prereqs := by simpa using hd'
          rw [show processPrereqCells owner (cell :: rest) seen prereqs warns =
                processPrereqCells owner rest (seen ++ [toUpper cell])
                  (prereqs ++ [toUpper cell]) warns from by
              simp [processPrereqCells, hc, hv, hdm],
            show specPrereqFold owner (cell :: rest) prereqs =
                specPrereqFold owner rest (prereqs ++ [toUpper cell]) from by
              simp [specPrereqFold, hc, hv, hdm']]
          apply ih
          intro x
          rw [contains_append_singleton, contains_append_singleton, h x]

/-- C5.  Per-record prerequisite processing refines the specification: the
source loop (which keeps a separate seen-set) computes exactly the
accepted-prerequisite list and warning list prescribed by §4.2 step 5 of
the specification — empty fields dropped silently, invalid fields dropped
with a warning naming the owner, duplicates of already-accepted
prerequisites dropped with a warning naming the duplicate and the owner,
and first occurrences kept in encounter order. -/
theorem prereq_processing_matches_spec (owner : String)
    (cells : List String) :
    processPrereqCells owner cells [] [] [] =
      specPrereqFold owner cells [] := by
  rw [processPrereqCells_eq_spec_general owner cells [] [] []
    (fun u => rfl)]
  simp

theorem sortDedup_sorted (l : List String) :
    List.Sorted (fun a b => a ≤ b) (sortDedup l) :=
  List.Pairwise.sublist (List.dedup_sublist _)
    (List.sorted_insertionSort _ l)

theorem sortDedup_nodup (l : List String) : (sortDedup l).Nodup :=
  List.nodup_dedup _

theorem mem_sortDedup (l : List String) (x : String) :
    x ∈ sortDedup l ↔ x ∈ l := by
  unfold sortDedup
  rw [List.mem_dedup, (List.perm_insertionSort _ _).mem_iff]

theorem mem_missingPairs (dir : List (String × Course)) (s : String) :
    s ∈ missingPairs dir ↔
      ∃ kc ∈ dir, ∃ p ∈ kc.2.prerequisites,
        alookup dir p = none ∧
        s = p ++ " (referenced by " ++ kc.1 ++ ")" := by
  unfold missingPairs
  rw [List.mem_flatten]
  constructor
  · rintro ⟨l, hl, hs⟩
    rw [List.mem_map] at hl
    rcases hl with ⟨kc, hkc, rfl⟩
    rw [List.mem_map] at hs
    rcases hs with ⟨p, hp, rfl⟩
    rw [List.mem_filter] at hp
    exact ⟨kc, hkc, p, hp.1, by simpa using hp.2, rfl⟩
  · rintro ⟨kc, hkc, p, hp, hnone, rfl⟩
    refine ⟨_, List.mem_map_of_mem _ hkc, ?_⟩
    exact List.mem_map_of_mem _ (List.mem_filter.mpr ⟨hp, by simp [hnone]⟩)

/-- C4.  Dangling-prerequisite check: on every successful load the
result's `missingPrerequisites` is lexicographically sorted, free of
duplicates, and contains a string exactly when it is
"<missing-id> (referenced by <owner-id>)" for some committed course and
some prerequisite it lists that is absent from the committed mapping (so a
prerequisite defined anywhere in the same file is never reported, and a
non-empty list coexists with `ok = true`). -/
theorem missing_prereqs_characterization (cat : Catalog) (fs : FileSystem)
    (f : String) (h : (Catalog.load cat fs f).2.ok = true) :
    List.Sorted (fun a b => a ≤ b)
      (Catalog.load cat fs f).2.missingPrerequisites ∧
    (Catalog.load cat fs f).2.missingPrerequisites.Nodup ∧
    ∀ s, s ∈ (Catalog.load cat fs f).2.missingPrerequisites ↔
      ∃ kc ∈ (Catalog.load cat fs f).1.courseDirectory,
        ∃ p ∈ kc.2.prerequisites,
          (Catalog.load cat fs f).1.get p = none ∧
          s = p ++ " (referenced by " ++ kc.1 ++ ")" := by
  rcases load_shape cat fs f with ⟨hok, -⟩ | ⟨-, -, fl, -, hstate, hmiss, -⟩
  · rw [hok] at h
    exact absurd h (by simp)
  · rw [hmiss, hstate]
    refine ⟨sortDedup_sorted _, sortDedup_nodup _, fun s => ?_⟩
    rw [mem_sortDedup, mem_missingPairs]
    exact Iff.rfl

theorem missing_prereqs_characterization_witness :
    "MATH101 (referenced by CSCI200)" ∈
      (Catalog.load { } fsSample "/data.csv").2.missingPrerequisites :=
  ((missing_prereqs_characterization { } fsSample "/data.csv"
      (by decide)).2.2 _).mpr
    ⟨("CSCI200",
      { courseNumber := "CSCI200", courseName := "Intro to CS",
        prerequisites := ["MATH101"] }), by decide, "MATH101", by decide,
      by decide, rfl⟩

theorem alookup_map_assign_self (m : List (String × Course)) (k : String)
    (v : Course) :
    alookup (m.map (fun kc => if kc.1 = k then (k, v) else kc)) k =
      if (alookup m k).isSome then some v else none := by
  induction m with
  | nil => simp [alookup]
  | cons kc rest ih =>
    by_cases h : kc.1 = k
    · simp [alookup, h]
    · simp only [List.map_cons, if_neg h]
      rw [show alookup ((kc :: rest.map (fun kc =>
          if kc.1 = k then (k, v) else kc))) k =
          alookup (rest.map (fun kc => if kc.1 = k then (k, v) else kc)) k
        from by simp [alookup, h], ih]
      rw [show alookup (kc :: rest) k = alookup rest k from by
        simp [alookup, h]]

theorem alookup_map_assign_other (m : List (String × Course))
    (k id : String) (v : Course) (hne : k ≠ id) :
    alookup (m.map (fun kc => if kc.1 = k then (k, v) else kc)) id =
      alookup m id := by
  induction m with
  | nil => simp [alookup]
  | cons kc rest ih =>
    by_cases h : kc.1 = k
    · rw [show (kc :: rest).map (fun kc => if kc.1 = k then (k, v) else kc) =
          (k, v) :: rest.map (fun kc => if kc.1 = k then (k, v) else kc)
        from by simp [h]]
      rw [show alookup ((k, v) :: rest.map (fun kc =>
          if kc.1 = k then (k, v) else kc)) id =
          alookup (rest.map (fun kc => if kc.1 = k then (k, v) else kc)) id
        from by simp [alookup, hne], ih]
      rw [show alookup (kc :: rest) id = alookup rest id from by
        simp [alookup, h ▸ hne]]
    · rw [show (kc :: rest).map (fun kc => if kc.1 = k then (k, v) else kc) =
          kc :: rest.map (fun kc => if kc.1 = k then (k, v) else kc)
        from by simp [h]]
      by_cases hid : kc.1 = id
      · simp [alookup, hid]
      · rw [show alookup (kc :: rest.map (fun kc =>
            if kc.1 = k then (k, v) else kc)) id =
            alookup (rest.map (fun kc => if kc.1 = k then (k, v) else kc)) id
          from by simp [alookup, hid], ih]
        rw [show alookup (kc :: rest) id = alookup rest id from by
          simp [alookup, hid]]

theorem alookup_append_single (m : List (String × Course))
    (k id : String) (v : Course) :
    alookup (m ++ [(k, v)]) id =
      match alookup m id with
      | some c => some c
      | none => if k = id then some v else none := by
  induction m with
  | nil => simp [alookup]
  | cons kc rest ih =>
    by_cases h : kc.1 = id
    · simp [alookup, h]
    · rw [List.cons_append]
      rw [show alookup (kc :: (rest ++ [(k, v)])) id =
          alookup (rest ++ [(k, v)]) id from by simp [alookup, h], ih]
      rw [show alookup (kc :: rest) id = alookup rest id from by
        simp [alookup, h]]

theorem alookup_ainsert (m : List (String × Course)) (k id : String)
    (v : Course) :
    alookup (ainsert m k v) id =
      if k = id then some v else alookup m id := by
  unfold ainsert
  by_cases hp : (alookup m k).isSome = true
  · rw [if_pos hp]
    by_cases hk : k = id
    · subst hk
      rw [if_pos rfl, alookup_map_assign_self, if_pos hp]
    · rw [if_neg hk, alookup_map_assign_other m k id v hk]
  · rw [if_neg hp, alookup_append_single]
    by_cases hk : k = id
    · subst hk
      have hnone : alookup m k = none := by
        rcases hh : alookup m k with - | c
        · rfl
        · rw [hh] at hp; exact absurd rfl hp
      rw [hnone]
    · simp only [if_neg hk]
      rcases alookup m id with - | c
      · rfl
      · rfl

theorem parseLine_fst_eq (n : Nat) (l : String) :
    (parseLine n l).1 = lineCourse l := by
  unfold lineCourse parseLine
  by_cases h : trim l = ""
  · rw [if_pos h, if_pos h]
  · rw [if_neg h, if_neg h]
    rcases (splitCells (trim l)).map trim with - | ⟨c0, - | ⟨c1, rest⟩⟩
    · rfl
    · rfl
    · dsimp only
      by_cases hv : isCourseIdValid (toUpper c0) = false
      · rw [if_pos hv, if_pos hv]
      · rw [if_neg hv, if_neg hv]

theorem lastCourseFor_cons (id l : String) (rest : List String) :
    lastCourseFor id (l :: rest) =
      match lastCourseFor id rest with
      | some c => some c
      | none =>
        match lineCourse l with
        | some c => if c.courseNumber = id then some c else none
        | none => none := rfl

theorem processLines_alookup (lines : List String) :
    ∀ (n : Nat) (dir : List (String × Course)) (warns : List String)
      (id : String),
      alookup (processLines lines n dir warns).1 id =
        match lastCourseFor id lines with
        | some c => some c
        | none => alookup dir id := by
  induction lines with
  | nil => intro n dir warns id; rfl
  | cons l rest ih =>
    intro n dir warns id
    unfold processLines
    rcases hp : parseLine n l with ⟨course?, ws⟩
    have hlc : course? = lineCourse l := by
      rw [← parseLine_fst_eq n l, hp]
    rcases course? with - | course
    · dsimp only
      rw [ih (n + 1) dir (warns ++ ws) id, lastCourseFor_cons, ← hlc]
      rcases lastCourseFor id rest with - | c
      · rfl
      · rfl
    · dsimp only
      rw [ih (n + 1) _ _ id, alookup_ainsert, lastCourseFor_cons, ← hlc]
      rcases lastCourseFor id rest with - | c
      · by_cases hcid : course.courseNumber = id
        · rw [if_pos hcid]
          simp [hcid]
        · rw [if_neg hcid]
          simp [hcid]
      · rfl

theorem head_append_left (a b : String) (c : Char)
    (h : a.data.head? = some c) : (a ++ b).data.head? = some c := by
  rw [String.data_append]
  rcases hd : a.data with - | ⟨x, r⟩
  · rw [hd] at h
    exact absurd h (by simp)
  · rw [hd] at h
    simpa using h

theorem replWarn_head (id : String) :
    (replWarn id).data.head? = some 'R' := by
  unfold replWarn
  exact head_append_left _ _ _ (head_append_left _ _ _ (by decide))

theorem invalidPrereqWarn_head (cell owner : String) :
    (invalidPrereqWarn cell owner).data.head? = some 'S' := by
  unfold invalidPrereqWarn
  exact head_append_left _ _ _ (head_append_left _ _ _
    (head_append_left _ _ _ (head_append_left _ _ _ (by decide))))

theorem dupPrereqWarn_head (prereqId owner : String) :
    (dupPrereqWarn prereqId owner).data.head? = some 'D' := by
  unfold dupPrereqWarn
  exact head_append_left _ _ _ (head_append_left _ _ _
    (head_append_left _ _ _ (head_append_left _ _ _ (by decide))))

theorem fewFieldsWarn_head (n : Nat) :
    (fewFieldsWarn n).data.head? = some 'S' := by
  unfold fewFieldsWarn
  exact head_append_left _ _ _ (head_append_left _ _ _ (by decide))

theorem badIdWarn_head (n : Nat) (token : String) :
    (badIdWarn n token).data.head? = some 'S' := by
  unfold badIdWarn
  exact head_append_left _ _ _ (head_append_left _ _ _
    (head_append_left _ _ _ (head_append_left _ _ _ (by decide))))

theorem replWarn_inj (k id : String) (h : replWarn k = replWarn id) :
    k = id := by
  unfold replWarn at h
  have hd := congrArg String.data h
  simp only [String.data_append] at hd
  have h1 := List.append_cancel_right hd
  have h2 := List.append_cancel_left h1
  rcases k with ⟨kd⟩
  rcases id with ⟨idd⟩
  rw [show kd = idd from h2]

theorem processPrereqCells_warns_mem (owner : String) :
    ∀ (cells seen prereqs warns : List String) (w : String),
      w ∈ (processPrereqCells owner cells seen prereqs warns).2 →
      w ∈ warns ∨ (∃ c, w = invalidPrereqWarn c owner) ∨
        (∃ c, w = dupPrereqWarn c owner) := by
  intro cells
  induction cells with
  | nil => intro seen prereqs warns w h; exact Or.inl h
  | cons cell rest ih =>
    intro seen prereqs warns w h
    by_cases hc : cell = ""
    · rw [show processPrereqCells owner (cell :: rest) seen prereqs warns =
            processPrereqCells owner rest seen prereqs warns from by
          simp [processPrereqCells, hc]] at h
      exact ih _ _ _ _ h
    · by_cases hv : isCourseIdValid (toUpper cell) = false
      · rw [show processPrereqCells owner (cell :: rest) seen prereqs warns =
              processPrereqCells owner rest seen prereqs
                (warns ++ [invalidPrereqWarn cell owner]) from by
            simp [processPrereqCells, hc, hv]] at h
        rcases ih _ _ _ _ h with hw | hrest
        · rcases List.mem_append.mp hw with h1 | h1
          · exact Or.inl h1
          · exact Or.inr (Or.inl ⟨cell, by simpa using h1⟩)
        · exact Or.inr hrest
      · by_cases hd : toUpper cell ∈ seen
        · rw [show processPrereqCells owner (cell :: rest) seen prereqs warns
                = processPrereqCells owner rest seen prereqs
                  (warns ++ [dupPrereqWarn (toUpper cell) owner]) from by
              simp [processPrereqCells, hc, hv, hd]] at h
          rcases ih _ _ _ _ h with hw | hrest
          · rcases List.mem_append.mp hw with h1 | h1
            · exact Or.inl h1
            · exact Or.inr (Or.inr ⟨toUpper cell, by simpa using h1⟩)
          · exact Or.inr hrest
        · rw [show processPrereqCells owner (cell :: rest) seen prereqs warns
                = processPrereqCells owner rest (seen ++ [toUpper cell])
                  (prereqs ++ [toUpper cell]) warns from by
              simp [processPrereqCells, hc, hv, hd]] at h
          exact ih _ _ _ _ h

theorem parseLine_warns_not_replWarn (n : Nat) (l : String) (id : String) :
    replWarn id ∉ (parseLine n l).2 := by
  intro hmem
  have hR := replWarn_head id
  unfold parseLine at hmem
  by_cases h : trim l = ""
  · rw [if_pos h] at hmem
    exact absurd hmem (by simp)
  · rw [if_neg h] at hmem
    rcases hcols : (splitCells (trim l)).map trim with - | ⟨c0, - | ⟨c1, rest⟩⟩
    · rw [hcols] at hmem
      have : replWarn id = fewFieldsWarn n := by simpa using hmem
      rw [this, fewFieldsWarn_head n] at hR
      exact absurd hR (by simp)
    · rw [hcols] at hmem
      have : replWarn id = fewFieldsWarn n := by simpa using hmem
      rw [this, fewFieldsWarn_head n] at hR
      exact absurd hR (by simp)
    · rw [hcols] at hmem
      dsimp only at hmem
      by_cases hv : isCourseIdValid (toUpper c0) = false
      · rw [if_pos hv] at hmem
        have : replWarn id = badIdWarn n c0 := by simpa using hmem
        rw [this, badIdWarn_head n c0] at hR
        exact absurd hR (by simp)
      · rw [if_neg hv] at hmem
        dsimp only at hmem
        rcases processPrereqCells_warns_mem (toUpper c0) rest [] [] []
            (replWarn id) hmem with hw | ⟨c, hc⟩ | ⟨c, hc⟩
        · exact absurd hw (by simp)
        · rw [hc, invalidPrereqWarn_head c (toUpper c0)] at hR
          exact absurd hR (by simp)
        · rw [hc, dupPrereqWarn_head c (toUpper c0)] at hR
          exact absurd hR (by simp)

theorem processLines_count_replWarn (lines : List String) :
    ∀ (n : Nat) (dir : List (String × Course)) (warns : List String)
      (id : String),
      (processLines lines n dir warns).2.count (replWarn id) =
        warns.count (replWarn id) +
        (if (alookup dir id).isSome then countDefs id lines
         else countDefs id lines - 1) := by
  induction lines with
  | nil =>
    intro n dir warns id
    rcases alookup dir id with - | c
    · simp [processLines, countDefs]
    · simp [processLines, countDefs]
  | cons l rest ih =>
    intro n dir warns id
    unfold processLines
    rcases hp : parseLine n l with ⟨course?, ws⟩
    have hlc : course? = lineCourse l := by
      rw [← parseLine_fst_eq n l, hp]
    have hws : ws.count (replWarn id) = 0 := by
      rw [List.count_eq_zero]
      have hx := parseLine_warns_not_replWarn n l id
      rw [hp] at hx
      exact hx
    rcases course? with - | course
    · dsimp only
      rw [ih (n + 1) dir (warns ++ ws) id]
      have hdefs : countDefs id (l :: rest) = countDefs id rest := by
        unfold countDefs
        rw [List.countP_cons, ← hlc]
        simp
      rw [hdefs, List.count_append, hws]
      omega
    · dsimp only
      rw [ih (n + 1) _ _ id]
      have hdefs : countDefs id (l :: rest) =
          countDefs id rest +
            (if course.courseNumber = id then 1 else 0) := by
        unfold countDefs
        rw [List.countP_cons, ← hlc]
        by_cases hcid : course.courseNumber = id
        · simp [hcid]
        · simp [hcid]
      rw [hdefs, alookup_ainsert]
      by_cases hcid : course.courseNumber = id
      · rcases hpre : alookup dir id with - | c0
        · simp [hcid, hpre, List.count_append, hws]
        · simp [hcid, hpre, List.count_append, hws, List.count_cons]
          omega
      · have hne : ¬(replWarn id = replWarn course.courseNumber) :=
          fun hx => hcid (replWarn_inj _ _ hx.symm)
        by_cases hk2 : (alookup dir course.courseNumber).isSome = true
        · rcases hpre : alookup dir id with - | c0
          · simp [hcid, hpre, hk2, List.count_append, hws,
              List.count_cons, hne]
          · simp [hcid, hpre, hk2, List.count_append, hws,
              List.count_cons, hne]
        · rcases hpre : alookup dir id with - | c0
          · simp [hcid, hpre, hk2, List.count_append, hws]
          · simp [hcid, hpre, hk2, List.count_append, hws]

/-- C6.  Duplicate course identifiers: folding the lines of a file into an
initially empty directory, the entry committed for any identifier is
exactly the course produced by the last line defining it (title and
prerequisites wholesale), the key set has no duplicates (so the course
count counts each identifier once), and the warning "Replacing existing
course entry for <ID>." occurs in the warning list exactly once per
replacement — the number of lines defining the identifier minus one.
Processing always continues over the remaining lines. -/
theorem duplicate_course_last_wins (lines : List String) (id : String) :
    alookup (processLines lines 1 [] []).1 id = lastCourseFor id lines ∧
    ((processLines lines 1 [] []).1.map Prod.fst).Nodup ∧
    (processLines lines 1 [] []).2.count (replWarn id) =
      countDefs id lines - 1 := by
  refine ⟨?_, processLines_keys_nodup lines 1 [] [] (by simp), ?_⟩
  · rw [processLines_alookup lines 1 [] [] id]
    rcases lastCourseFor id lines with - | c
    · rfl
    · rfl
  · rw [processLines_count_replWarn lines 1 [] [] id]
    simp [alookup]
